import Mathlib

/-!
Verification development for the normative-terms Excel parser
(`os_parser.py`).  The Python source is shallowly embedded: spreadsheet
cell values become the inductive `CellVal`, rich-text runs become `Run`,
the mutating hierarchy builder of `parse_normative_terms` becomes an
explicit heap (a list of nodes addressed by index) threaded through a
step function, and the string-normalisation helpers are modelled
character-by-character.
-/

/-- One run of a rich-text cell: either a bare string part (no
formatting information, `part` without a `font` attribute in the source)
or a formatted block carrying the font's `vertAlign` value. -/
inductive Run where
  | plain (s : String)
  | block (s : String) (vertAlign : Option String)
deriving DecidableEq

/-- A raw spreadsheet cell value as seen by the parser: Python `None`,
a string, an integer, or an `openpyxl` rich-text value (list of runs). -/
inductive CellVal where
  | none
  | str (s : String)
  | int (n : Int)
  | rich (runs : List Run)
deriving DecidableEq

/-- The character class of the regex `[\xa0\s]+` used at lines 226 and
264 of the source, and of Python's `str.strip`: ASCII whitespace and the
non-breaking space. -/
def isWS (c : Char) : Bool :=
  c == ' ' || c == '\t' || c == '\n' || c == '\r' || c == '\x0b' || c == '\x0c' || c == '\xa0'

/-- Python truthiness test for the model's strings. -/
def strEmpty (s : String) : Bool := s.data.isEmpty

/-- Replace every maximal run of whitespace characters by a single ASCII
space: the effect of `re.sub(r'[\xa0\s]+', ' ', text)`.  The boolean
records whether the previous character belonged to a whitespace run. -/
def collapseGo : Bool → List Char → List Char
  | _, [] => []
  | prevWS, c :: cs =>
    if isWS c then
      if prevWS then collapseGo true cs else ' ' :: collapseGo true cs
    else c :: collapseGo false cs

def collapseWS (l : List Char) : List Char := collapseGo false l

/-- Python `str.strip()`: drop whitespace from both ends. -/
def trimWS (l : List Char) : List Char :=
  ((l.dropWhile isWS).reverse.dropWhile isWS).reverse

/-- `clean_string` (source lines 260-264): collapse whitespace runs to a
single space, then strip.  On the empty string the source returns its
argument unchanged, which coincides with this definition. -/
def clean_string (s : String) : String := String.mk (trimWS (collapseWS s.data))

/-- Python `str.strip()` on a model string. -/
def pyStrip (s : String) : String := String.mk (trimWS s.data)

/-- Python `str.split(sep)` for a one-character separator, on the
character list: `""` yields `[[]]`, and separators delimit (possibly
empty) fields. -/
def splitChars (sep : Char) : List Char → List (List Char)
  | [] => [[]]
  | c :: cs =>
    let r := splitChars sep cs
    if c == sep then [] :: r
    else
      match r with
      | [] => [[c]]
      | h :: t => (c :: h) :: t

def pySplit (sep : Char) (s : String) : List String :=
  (splitChars sep s.data).map String.mk

/-- Line 29 of the source: split the superscript accumulator on commas,
strip each piece, and keep the non-empty pieces. -/
def splitRefs (links : String) : List String :=
  (pySplit ',' links).filterMap fun item =>
    let t := pyStrip item
    if strEmpty t then Option.none else some t

/-- The text carried by a run (used by `str()` on rich text). -/
def Run.textOf : Run → String
  | .plain s => s
  | .block s _ => s

/-- Python `str()` of a raw cell value. -/
def pyStr : CellVal → String
  | .none => "None"
  | .str s => s
  | .int n => toString n
  | .rich rs => String.join (rs.map Run.textOf)

/-- Python truthiness of a raw cell value (`None`, `""`, `0` and the
empty rich text are falsy). -/
def truthy : CellVal → Bool
  | .none => false
  | .str s => !strEmpty s
  | .int n => n != 0
  | .rich rs => !rs.isEmpty

/-- `extract_text_and_notes` (source lines 6-33).  For a rich value the
runs are folded left to right into a text accumulator and a
superscript accumulator; a blank text accumulator becomes `None`, and
the superscript accumulator is split into footnote references.  For a
plain value, a falsy value becomes `None`; otherwise the value is
returned verbatim, with no references. -/
def extract_text_and_notes : CellVal → CellVal × List String
  | .rich rs =>
    let acc := rs.foldl
      (fun (acc : String × String) p =>
        match p with
        | Run.block s va =>
          if va = some "superscript" then (acc.1, acc.2 ++ s) else (acc.1 ++ s, acc.2)
        | Run.plain s => (acc.1 ++ s, acc.2))
      ("", "")
    let term := if strEmpty (pyStrip acc.1) then CellVal.none else CellVal.str acc.1
    (term, splitRefs acc.2)
  | v => (if truthy v then v else CellVal.none, [])

/-- Sanity check of the string normalisation embedding. -/
lemma clean_string_example : clean_string "  a \xa0 b " = "a b" := by decide

/-- Python `str.isdigit()`: non-empty and every character a decimal
digit (restricted to ASCII digits in the model). -/
def pyIsDigit (s : String) : Bool := !s.data.isEmpty && s.data.all Char.isDigit

/-- One spreadsheet row as consumed by `parse_normative_terms`: the
description cell (column 1) with its alignment indent, the code cell
(column 2) and the term cell (column 3). -/
structure Row where
  desc : CellVal
  indent : Nat
  code : CellVal
  term : CellVal
deriving DecidableEq

/-- The `description` sub-dictionary of a node (lines 100-104): the
`value` key is always present (possibly `None`); the `notes` key is
present exactly when the list is non-empty. -/
structure DescNode where
  value : CellVal
  notes : List String
deriving DecidableEq

/-- The `term` sub-dictionary (lines 119-123): the `value` key is
present iff the decoded term is not `None` (modelled by the `Option`);
the `notes` key is present exactly when the list is non-empty. -/
structure TermNode where
  value : Option CellVal
  notes : List String
deriving DecidableEq

/-- One tree node, heap-allocated.  `children = Option.none` models a
dictionary without a `children` key; children are stored as heap
indices so that the source's aliasing mutation (appending through the
`current_nodes` registers) is represented faithfully. -/
structure HNode where
  description : DescNode
  code : CellVal
  term : Option TermNode
  children : Option (List Nat)
deriving DecidableEq

/-- Skip condition, line 111: `not caption and not code and
(not term_cell.value or term_cell.value == '')`. -/
def isSkip (r : Row) : Bool :=
  !truthy (extract_text_and_notes r.desc).1 && !truthy r.code &&
    (!truthy r.term || r.term == CellVal.str "")

/-- Rule 2 condition, line 140: truthy code, all digits, one digit. -/
def isL1 (r : Row) : Bool :=
  truthy r.code && pyIsDigit (pyStr r.code) && (pyStr r.code).length == 1

/-- Rule 3 condition, line 149: truthy code, all digits, three digits. -/
def isL2 (r : Row) : Bool :=
  truthy r.code && pyIsDigit (pyStr r.code) && (pyStr r.code).length == 3

/-- Rule 4 condition, line 162: truthy code, all digits, five digits,
indent zero. -/
def isL3 (r : Row) : Bool :=
  truthy r.code && pyIsDigit (pyStr r.code) && (pyStr r.code).length == 5 &&
    r.indent == 0

/-- Rule 5 condition, line 175 (`not code and not term and caption`),
which is also the children-forcing condition of line 136. -/
def isGroupHeader (r : Row) : Bool :=
  !truthy r.code && !truthy (extract_text_and_notes r.term).1 &&
    truthy (extract_text_and_notes r.desc).1

def mkDesc (r : Row) : DescNode :=
  ⟨(extract_text_and_notes r.desc).1, (extract_text_and_notes r.desc).2⟩

def mkTerm (r : Row) : Option TermNode :=
  let t := (extract_text_and_notes r.term).1
  let ns := (extract_text_and_notes r.term).2
  if t == CellVal.none && ns.isEmpty then Option.none
  else some ⟨if t == CellVal.none then Option.none else some t, ns⟩

/-- The node dictionary built at lines 100-137, before classification:
`description` and `code` always, `term` only when non-empty, and a
forced empty `children` list exactly under the group-header condition. -/
def mkNode (r : Row) : HNode :=
  { description := mkDesc r
    code := r.code
    term := mkTerm r
    children := if isGroupHeader r then some [] else Option.none }

/-- Point update of the heap (no-op out of bounds). -/
def hmodify : List HNode → Nat → (HNode → HNode) → List HNode
  | [], _, _ => []
  | n :: t, 0, f => f n :: t
  | n :: t, i+1, f => n :: hmodify t i f

/-- Append a child index to a parent's `children` list.  At every call
site but one the parent provably carries a `children` key already; the
`getD []` realises the lazy creation of lines 195-196 at the one site
(leaf under a level-3 node) where the key may be absent. -/
def appendChild (h : List HNode) (pid cid : Nat) : List HNode :=
  hmodify h pid fun n => { n with children := some (n.children.getD [] ++ [cid]) }

/-- The builder's working state: the heap of created nodes, the four
`current_nodes` registers (heap indices) and the root index list. -/
structure BState where
  heap : List HNode
  cur1 : Option Nat
  cur2 : Option Nat
  cur3 : Option Nat
  curg : Option Nat
  roots : List Nat
deriving DecidableEq

def initState : BState := ⟨[], Option.none, Option.none, Option.none, Option.none, []⟩

/-- One iteration of the row loop of `parse_normative_terms`
(lines 94-203): the priority-ordered classification cascade. -/
def step (st : BState) (r : Row) : BState :=
  if isSkip r then st
  else
    let nid := st.heap.length
    let node := mkNode r
    if isL1 r then
      { st with
        heap := st.heap ++ [{ node with children := some [] }]
        cur1 := some nid, cur2 := Option.none, cur3 := Option.none, curg := Option.none
        roots := st.roots ++ [nid] }
    else if isL2 r then
      let h := st.heap ++ [{ node with children := some [] }]
      match st.cur1 with
      | some p =>
        { st with heap := appendChild h p nid
                  cur2 := some nid, cur3 := Option.none, curg := Option.none }
      | Option.none =>
        { st with heap := h, cur2 := some nid, cur3 := Option.none, curg := Option.none
                  roots := st.roots ++ [nid] }
    else if isL3 r then
      let h := st.heap ++ [node]
      match st.cur2, st.cur1 with
      | some p, _ =>
        { st with heap := appendChild h p nid, cur3 := some nid, curg := Option.none }
      | Option.none, some p =>
        { st with heap := appendChild h p nid, cur3 := some nid, curg := Option.none }
      | Option.none, Option.none =>
        { st with heap := h, cur3 := some nid, curg := Option.none
                  roots := st.roots ++ [nid] }
    else if isGroupHeader r then
      let h := st.heap ++ [node]
      match st.cur2, st.cur1 with
      | some p, _ => { st with heap := appendChild h p nid, curg := some nid }
      | Option.none, some p => { st with heap := appendChild h p nid, curg := some nid }
      | Option.none, Option.none =>
        { st with heap := h, curg := some nid, roots := st.roots ++ [nid] }
    else if r.indent == 2 then
      let h := st.heap ++ [node]
      match st.curg, st.cur3, st.cur2, st.cur1 with
      | some p, _, _, _ => { st with heap := appendChild h p nid }
      | Option.none, some p, _, _ => { st with heap := appendChild h p nid }
      | Option.none, Option.none, some p, _ => { st with heap := appendChild h p nid }
      | Option.none, Option.none, Option.none, some p =>
        { st with heap := appendChild h p nid }
      | Option.none, Option.none, Option.none, Option.none =>
        { st with heap := h, roots := st.roots ++ [nid] }
    else st

/-- The full row loop, from the initial state of lines 86-91. -/
def runRows (rows : List Row) : BState := rows.foldl step initState

/-- Lines 251-252 of the source: delete the node's `children` key when
it holds an empty list. -/
def deleteIfEmpty (h : List HNode) (i : Nat) : List HNode :=
  match h.get? i with
  | some n =>
    if n.children = some ([] : List Nat) then
      hmodify h i fun m => { m with children := Option.none }
    else h
  | Option.none => h

/-- `clean_empty_children` (lines 249-256) on the heap: delete a
`children` key holding an empty list, then recurse into the (fixed)
children list via the fold over it.  The fuel bounds the recursion
depth; it is instantiated with the heap size, which bounds every
parent-to-child chain the builder can create since a child's index
always exceeds its parent's. -/
def clean_empty_children : List HNode → Nat → Nat → List HNode
  | h, 0, _ => h
  | h, fuel+1, i =>
    let h1 := deleteIfEmpty h i
    match h1.get? i with
    | some n =>
      match n.children with
      | some cs => cs.foldl (fun hh c => clean_empty_children hh fuel c) h1
      | Option.none => h1
    | Option.none => h1

/-- `parse_normative_terms` (lines 81-207) on a decoded row sequence:
run the classification loop, then clean empty `children` lists from
every root.  The result is the root index list together with the final
heap. -/
def parse_normative_terms (rows : List Row) : List Nat × List HNode :=
  let st := runRows rows
  (st.roots, st.roots.foldl (fun h r => clean_empty_children h h.length r) st.heap)

/-- The `children` entry of heap node `i` (`Option.none` when the node
does not exist or has no `children` key). -/
def childrenOf (h : List HNode) (i : Nat) : Option (List Nat) :=
  match h.get? i with
  | some n => n.children
  | Option.none => Option.none

/-- `heapClean h fuel i`: node `i` and every node reachable from it
within `fuel` steps carry no `children` key whose value is the empty
list. -/
def heapClean (h : List HNode) : Nat → Nat → Bool
  | 0, _ => true
  | fuel+1, i =>
    (childrenOf h i).all fun cs => !cs.isEmpty && cs.all (heapClean h fuel)

/-- One footnote entry (`{"key": ..., "note": ...}` of line 241). -/
structure Note where
  key : String
  note : String
deriving DecidableEq

/-- One iteration of the loop of `parse_notes` (lines 219-246).  The
accumulator holds the entries in reverse order; its head is the
`current_note`, which exists exactly when the accumulator is
non-empty, since every appended entry becomes current. -/
def notesStep (acc : List Note) (v : CellVal) : List Note :=
  if !truthy v then acc
  else
    let text := clean_string (pyStrip (pyStr v))
    if strEmpty text then acc
    else
      let key := String.mk (text.data.takeWhile Char.isDigit)
      if !strEmpty key then
        ⟨key, pyStrip (String.mk (text.data.drop key.length))⟩ :: acc
      else
        match acc with
        | [] => acc
        | n :: rest => ⟨n.key, n.note ++ " " ++ text⟩ :: rest

/-- `parse_notes` (lines 210-246) applied to the column-1 values of the
rows strictly after the marker row. -/
def parse_notes (vals : List CellVal) : List Note :=
  (vals.foldl notesStep []).reverse

/-- A sheet: the 1-indexed row list.  Cells outside the used range read
as empty (`None` value, indent 0), as in `openpyxl`. -/
structure Sheet where
  rows : List Row
deriving DecidableEq

def emptyRow : Row := ⟨CellVal.none, 0, CellVal.none, CellVal.none⟩

def getRow (s : Sheet) (i : Nat) : Row := s.rows.getD (i - 1) emptyRow

/-- The footnote-section marker test of line 57:
`cell_value and "Примечание" in str(cell_value)`. -/
def markerRow (r : Row) : Bool :=
  truthy r.desc && decide ("Примечание".data <:+: (pyStr r.desc).data)

/-- Lines 54-59: the first row index whose column-1 value contains the
marker. -/
def findNoteRow (s : Sheet) : Option Nat :=
  (List.range' 1 s.rows.length).find? fun i => markerRow (getRow s i)

/-- The rows of 1-indexed positions `a` to `b` inclusive. -/
def sheetRange (s : Sheet) (a b : Nat) : List Row :=
  (List.range' a (b + 1 - a)).map (getRow s)

/-- The assembled result of `parse_excel_to_json`: the builder output
(root indices and heap) and the footnote list. -/
structure ParseResult where
  normativeTerms : List Nat × List HNode
  notes : List Note
deriving DecidableEq

/-- `parse_excel_to_json` (lines 36-78): skip the 8 header rows, stop
the main part before the marker row (or at the last row when there is
none), and parse the footnote section only when a marker was found. -/
def parse_excel_to_json (s : Sheet) : ParseResult :=
  let note_row := findNoteRow s
  let end_row := match note_row with
    | some n => n - 1
    | Option.none => s.rows.length
  { normativeTerms := parse_normative_terms (sheetRange s 9 end_row)
    notes :=
      match note_row with
      | some n => parse_notes ((sheetRange s (n + 1) s.rows.length).map Row.desc)
      | Option.none => [] }

/-- Specification-side description of the Cell Decoder's text
accumulation: the text contributed by one run (empty for superscript
runs). -/
def runTextPart : Run → String
  | .plain s => s
  | .block s va => if va = some "superscript" then "" else s

/-- Specification-side description: the superscript text contributed by
one run. -/
def runSuperPart : Run → String
  | .plain _ => ""
  | .block s va => if va = some "superscript" then s else ""

/-- Concatenation of the non-superscript run texts, in order. -/
def concatTexts : List Run → String
  | [] => ""
  | r :: rs => runTextPart r ++ concatTexts rs

/-- Concatenation of the superscript run texts, in order. -/
def concatSupers : List Run → String
  | [] => ""
  | r :: rs => runSuperPart r ++ concatSupers rs

mutual

/-- A JSON-like Python value as handled by `clean_data` (lines
267-290): `None`, strings, numbers, lists and (ordered) dictionaries. -/
inductive Json where
  | null : Json
  | str (s : String) : Json
  | int (n : Int) : Json
  | arr (items : JsonArr) : Json
  | obj (fields : JsonObj) : Json

inductive JsonArr where
  | nil : JsonArr
  | cons (hd : Json) (tl : JsonArr) : JsonArr

inductive JsonObj where
  | nil : JsonObj
  | cons (key : String) (val : Json) (tl : JsonObj) : JsonObj

end

mutual

/-- `clean_data` (lines 267-290).  On anything but a dictionary or a
list the source does nothing. -/
def clean_data : Json → Json
  | Json.null => Json.null
  | Json.str s => Json.str s
  | Json.int n => Json.int n
  | Json.arr items => Json.arr (cleanArr items)
  | Json.obj fields => Json.obj (cleanObj fields)

/-- The list branch of `clean_data` (lines 285-290): string items are
cleaned, dictionary and list items are recursed into, everything else
(including `None`) is kept unchanged. -/
def cleanArr : JsonArr → JsonArr
  | JsonArr.nil => JsonArr.nil
  | JsonArr.cons v tl =>
    match v with
    | Json.null => JsonArr.cons Json.null (cleanArr tl)
    | Json.str s => JsonArr.cons (Json.str (clean_string s)) (cleanArr tl)
    | Json.int n => JsonArr.cons (Json.int n) (cleanArr tl)
    | Json.arr items => JsonArr.cons (Json.arr (cleanArr items)) (cleanArr tl)
    | Json.obj fields => JsonArr.cons (Json.obj (cleanObj fields)) (cleanArr tl)

/-- The dictionary branch of `clean_data` (lines 268-283): string
values are cleaned in place, dictionary and list values are recursed
into, and keys whose value is `None` are removed.  (The empty-list
removal test of line 278 is unreachable in the source, because every
list value is already caught by the `isinstance(value, (dict, list))`
branch of line 275; the embedding mirrors this.) -/
def cleanObj : JsonObj → JsonObj
  | JsonObj.nil => JsonObj.nil
  | JsonObj.cons k v tl =>
    match v with
    | Json.null => cleanObj tl
    | Json.str s => JsonObj.cons k (Json.str (clean_string s)) (cleanObj tl)
    | Json.int n => JsonObj.cons k (Json.int n) (cleanObj tl)
    | Json.arr items => JsonObj.cons k (Json.arr (cleanArr items)) (cleanObj tl)
    | Json.obj fields => JsonObj.cons k (Json.obj (cleanObj fields)) (cleanObj tl)

end

/-- Sanity check: the end-to-end three-row scenario of the spec's
testable properties, on the builder embedding. -/
lemma end_to_end_scenario :
    parse_normative_terms
      [⟨CellVal.str "Division", 0, CellVal.str "1", CellVal.none⟩,
       ⟨CellVal.str "Sub", 0, CellVal.str "101", CellVal.none⟩,
       ⟨CellVal.str "Item", 0, CellVal.str "10101", CellVal.str "25 years"⟩]
    = ([0],
       [⟨⟨CellVal.str "Division", []⟩, CellVal.str "1", Option.none, some [1]⟩,
        ⟨⟨CellVal.str "Sub", []⟩, CellVal.str "101", Option.none, some [2]⟩,
        ⟨⟨CellVal.str "Item", []⟩, CellVal.str "10101",
          some ⟨some (CellVal.str "25 years"), []⟩, Option.none⟩]) := by decide

/-! ## Helper lemmas about the step function -/

lemma isL1_false_of_code_falsy {r : Row} (h : truthy r.code = false) : isL1 r = false := by
  simp [isL1, h]

lemma isL2_false_of_code_falsy {r : Row} (h : truthy r.code = false) : isL2 r = false := by
  simp [isL2, h]

lemma isL3_false_of_code_falsy {r : Row} (h : truthy r.code = false) : isL3 r = false := by
  simp [isL3, h]

/-- Only the level-1 branch writes the `cur1` register. -/
lemma step_cur1 (st : BState) (r : Row) (h1 : isL1 r = false) :
    (step st r).cur1 = st.cur1 := by
  unfold step
  repeat' split <;> try (first | rfl | simp_all)

/-- Only the level-1 and level-2 branches write the `cur2` register. -/
lemma step_cur2 (st : BState) (r : Row) (h1 : isL1 r = false) (h2 : isL2 r = false) :
    (step st r).cur2 = st.cur2 := by
  unfold step
  repeat' split <;> try (first | rfl | simp_all)

/-- Only the level-1, level-2 and level-3 branches write the `cur3`
register. -/
lemma step_cur3 (st : BState) (r : Row) (h1 : isL1 r = false) (h2 : isL2 r = false)
    (h3 : isL3 r = false) : (step st r).cur3 = st.cur3 := by
  unfold step
  repeat' split <;> try (first | rfl | simp_all)

/-! ## C9: determinism of the Hierarchy Builder -/

/-- C9.  The Hierarchy Builder is deterministic: two runs on identical
copies of a row sequence produce identical output forests (root list
and heap).  In the embedding the builder is a pure function of its row
sequence, so equal inputs give equal outputs. -/
theorem builder_deterministic (rows1 rows2 : List Row) (h : rows1 = rows2) :
    parse_normative_terms rows1 = parse_normative_terms rows2 := by
  rw [h]

/-- Witness for C9 at a concrete one-row sequence. -/
theorem builder_deterministic_witness :
    parse_normative_terms [⟨CellVal.str "Division", 0, CellVal.str "1", CellVal.none⟩]
      = parse_normative_terms [⟨CellVal.str "Division", 0, CellVal.str "1", CellVal.none⟩] :=
  builder_deterministic _ _ rfl

/-! ## C2: the code-length discriminator -/

/-- C2.  For a row whose code cell holds a purely numeric (truthy,
all-digit) code, the assigned level is a pure function of the digit
count: 1 digit is exactly rule 2 (division), 3 digits exactly rule 3
(subdivision), 5 digits at indent 0 exactly rule 4 (group-code item);
and with any other digit count the step never executes one of those
three branches, witnessed by the three level registers being left
unchanged (each register is written only by its own level's branch). -/
theorem code_length_discriminator (st : BState) (r : Row)
    (hc : truthy r.code = true) (hd : pyIsDigit (pyStr r.code) = true) :
    (isL1 r = true ↔ (pyStr r.code).length = 1)
    ∧ (isL2 r = true ↔ (pyStr r.code).length = 3)
    ∧ (isL3 r = true ↔ ((pyStr r.code).length = 5 ∧ r.indent = 0))
    ∧ ((pyStr r.code).length ≠ 1 → (pyStr r.code).length ≠ 3 → (pyStr r.code).length ≠ 5 →
        (step st r).cur1 = st.cur1 ∧ (step st r).cur2 = st.cur2
          ∧ (step st r).cur3 = st.cur3) := by
  refine ⟨by simp [isL1, hc, hd], by simp [isL2, hc, hd],
    by simp [isL3, hc, hd, and_comm], ?_⟩
  intro k1 k3 k5
  have e1 : isL1 r = false := by simp [isL1, hc, hd, k1]
  have e2 : isL2 r = false := by simp [isL2, hc, hd, k3]
  have e3 : isL3 r = false := by simp [isL3, hc, hd, k5]
  exact ⟨step_cur1 st r e1, step_cur2 st r e1 e2, step_cur3 st r e1 e2 e3⟩

/-- Witness for C2 at a two-digit code. -/
theorem code_length_discriminator_witness :
    (truthy (CellVal.str "12") = true ∧ pyIsDigit (pyStr (CellVal.str "12")) = true
      ∧ (pyStr (CellVal.str "12")).length = 2)
    ∧ ((isL1 ⟨CellVal.none, 0, CellVal.str "12", CellVal.none⟩ = true
          ↔ (pyStr (CellVal.str "12")).length = 1)
        ∧ (isL2 ⟨CellVal.none, 0, CellVal.str "12", CellVal.none⟩ = true
          ↔ (pyStr (CellVal.str "12")).length = 3)
        ∧ (isL3 ⟨CellVal.none, 0, CellVal.str "12", CellVal.none⟩ = true
          ↔ ((pyStr (CellVal.str "12")).length = 5
              ∧ (⟨CellVal.none, 0, CellVal.str "12", CellVal.none⟩ : Row).indent = 0))
        ∧ ((pyStr (CellVal.str "12")).length ≠ 1 → (pyStr (CellVal.str "12")).length ≠ 3 →
            (pyStr (CellVal.str "12")).length ≠ 5 →
            (step initState ⟨CellVal.none, 0, CellVal.str "12", CellVal.none⟩).cur1
                = initState.cur1
              ∧ (step initState ⟨CellVal.none, 0, CellVal.str "12", CellVal.none⟩).cur2
                = initState.cur2
              ∧ (step initState ⟨CellVal.none, 0, CellVal.str "12", CellVal.none⟩).cur3
                = initState.cur3)) :=
  ⟨by decide, code_length_discriminator initState _ (by decide) (by decide)⟩

/-! ## C10: falsy non-rich cells and the zero code -/

/-- C10.  A non-`None` but falsy plain cell value (the number 0 or the
empty string) decodes to `None` text with no footnote references; a
code cell holding 0 is therefore treated as an absent code: the row is
never classified as a division (the `cur1` register, written only by
the division branch, is preserved), and a row whose only content is
such a code is skipped, leaving the state unchanged. -/
theorem falsy_cell_and_zero_code (st : BState) (r : Row) :
    extract_text_and_notes (CellVal.int 0) = (CellVal.none, [])
    ∧ extract_text_and_notes (CellVal.str "") = (CellVal.none, [])
    ∧ (r.code = CellVal.int 0 → (step st r).cur1 = st.cur1)
    ∧ (r.code = CellVal.int 0 → truthy (extract_text_and_notes r.desc).1 = false →
        truthy r.term = false → step st r = st) := by
  refine ⟨by decide, by decide, ?_, ?_⟩
  · intro hc
    have hf : truthy r.code = false := by rw [hc]; decide
    exact step_cur1 st r (isL1_false_of_code_falsy hf)
  · intro hc hd ht
    have hf : truthy r.code = false := by rw [hc]; decide
    have hs : isSkip r = true := by simp [isSkip, hd, hf, ht]
    simp [step, hs]

/-- Witness for C10: a row whose only content is a code cell holding 0
is skipped. -/
theorem falsy_cell_and_zero_code_witness :
    ((⟨CellVal.none, 0, CellVal.int 0, CellVal.none⟩ : Row).code = CellVal.int 0
      ∧ truthy (extract_text_and_notes
          (⟨CellVal.none, 0, CellVal.int 0, CellVal.none⟩ : Row).desc).1 = false
      ∧ truthy (⟨CellVal.none, 0, CellVal.int 0, CellVal.none⟩ : Row).term = false)
    ∧ (step initState ⟨CellVal.none, 0, CellVal.int 0, CellVal.none⟩).cur1 = initState.cur1
    ∧ step initState ⟨CellVal.none, 0, CellVal.int 0, CellVal.none⟩ = initState :=
  ⟨by decide,
   (falsy_cell_and_zero_code initState _).2.2.1 (by decide),
   (falsy_cell_and_zero_code initState _).2.2.2 (by decide) (by decide) (by decide)⟩

/-! ## C3: the group-header rule -/

/-- C3.  For a row with absent (falsy) code, absent decoded term and
present caption, the builder creates a node with a forced empty
children list, sets the `group` register to it without touching the
level-1/2/3 registers, and attaches it to the current level-2 node's
children if set, else the current level-1 node's, else the document
root list — the level-3 register plays no part in the attachment. -/
theorem group_header_rule (st : BState) (r : Row) (hg : isGroupHeader r = true) :
    (mkNode r).children = some []
    ∧ (step st r).cur1 = st.cur1 ∧ (step st r).cur2 = st.cur2 ∧ (step st r).cur3 = st.cur3
    ∧ step st r =
        (match st.cur2, st.cur1 with
         | some p, _ =>
           { st with heap := appendChild (st.heap ++ [mkNode r]) p st.heap.length
                     curg := some st.heap.length }
         | Option.none, some p =>
           { st with heap := appendChild (st.heap ++ [mkNode r]) p st.heap.length
                     curg := some st.heap.length }
         | Option.none, Option.none =>
           { st with heap := st.heap ++ [mkNode r], curg := some st.heap.length
                     roots := st.roots ++ [st.heap.length] }) := by
  have hparts := hg
  simp only [isGroupHeader, Bool.and_eq_true, Bool.not_eq_true'] at hparts
  obtain ⟨⟨hcode, hterm⟩, hcap⟩ := hparts
  have hskip : isSkip r = false := by simp [isSkip, hcap]
  have h1 := isL1_false_of_code_falsy hcode
  have h2 := isL2_false_of_code_falsy hcode
  have h3 := isL3_false_of_code_falsy hcode
  refine ⟨by simp [mkNode, hg], ?_, ?_, ?_, ?_⟩
  · exact step_cur1 st r h1
  · exact step_cur2 st r h1 h2
  · exact step_cur3 st r h1 h2 h3
  · simp [step, hskip, h1, h2, h3, hg]

/-- Witness for C3 at the empty builder state. -/
theorem group_header_rule_witness :
    isGroupHeader ⟨CellVal.str "Group", 0, CellVal.none, CellVal.none⟩ = true
    ∧ (mkNode ⟨CellVal.str "Group", 0, CellVal.none, CellVal.none⟩).children = some []
    ∧ step initState ⟨CellVal.str "Group", 0, CellVal.none, CellVal.none⟩ =
        ⟨[⟨⟨CellVal.str "Group", []⟩, CellVal.none, Option.none, some []⟩],
          Option.none, Option.none, Option.none, some 0, [0]⟩ :=
  ⟨by decide,
   (group_header_rule initState _ (by decide)).1,
   ((group_header_rule initState _ (by decide)).2.2.2.2).trans (by decide)⟩

/-! ## C1: the leaf-item rule (corrected to indent exactly 2) -/

/-- Counterexample to C1 as stated: a row matched by none of rules 1-5
whose description-cell indent is 3 (hence "2 or more") produces no node
at all — the state is unchanged and nothing is attached anywhere,
because the source's rule-6 guard is `indent == 2` exactly. -/
theorem leaf_item_claim_counterexample :
    (isSkip ⟨CellVal.str "x", 3, CellVal.none, CellVal.str "y"⟩ = false
      ∧ isL1 ⟨CellVal.str "x", 3, CellVal.none, CellVal.str "y"⟩ = false
      ∧ isL2 ⟨CellVal.str "x", 3, CellVal.none, CellVal.str "y"⟩ = false
      ∧ isL3 ⟨CellVal.str "x", 3, CellVal.none, CellVal.str "y"⟩ = false
      ∧ isGroupHeader ⟨CellVal.str "x", 3, CellVal.none, CellVal.str "y"⟩ = false
      ∧ 2 ≤ (⟨CellVal.str "x", 3, CellVal.none, CellVal.str "y"⟩ : Row).indent)
    ∧ step initState ⟨CellVal.str "x", 3, CellVal.none, CellVal.str "y"⟩ = initState := by
  decide

/-- C1 (amended).  For a row matched by none of rules 1-5 whose indent
is exactly 2, the builder creates a leaf node without a forced
`children` field and attaches it, in priority order, to the `group`
register's node if set, else the level-3 node (`appendChild` creates
the empty children list lazily there when the key is absent), else the
level-2 node, else the level-1 node, else the document root list. -/
theorem leaf_item_rule (st : BState) (r : Row)
    (hs : isSkip r = false) (h1 : isL1 r = false) (h2 : isL2 r = false)
    (h3 : isL3 r = false) (hg : isGroupHeader r = false) (hi : r.indent = 2) :
    (mkNode r).children = Option.none
    ∧ step st r =
        (match st.curg, st.cur3, st.cur2, st.cur1 with
         | some p, _, _, _ =>
           { st with heap := appendChild (st.heap ++ [mkNode r]) p st.heap.length }
         | Option.none, some p, _, _ =>
           { st with heap := appendChild (st.heap ++ [mkNode r]) p st.heap.length }
         | Option.none, Option.none, some p, _ =>
           { st with heap := appendChild (st.heap ++ [mkNode r]) p st.heap.length }
         | Option.none, Option.none, Option.none, some p =>
           { st with heap := appendChild (st.heap ++ [mkNode r]) p st.heap.length }
         | Option.none, Option.none, Option.none, Option.none =>
           { st with heap := st.heap ++ [mkNode r]
                     roots := st.roots ++ [st.heap.length] }) := by
  constructor
  · simp [mkNode, hg]
  · simp [step, hs, h1, h2, h3, hg, hi]

/-- Witness for C1 (amended) at the empty builder state: the leaf lands
in the document root list. -/
theorem leaf_item_rule_witness :
    (isSkip ⟨CellVal.str "item", 2, CellVal.none, CellVal.str "5"⟩ = false
      ∧ isL1 ⟨CellVal.str "item", 2, CellVal.none, CellVal.str "5"⟩ = false
      ∧ isL2 ⟨CellVal.str "item", 2, CellVal.none, CellVal.str "5"⟩ = false
      ∧ isL3 ⟨CellVal.str "item", 2, CellVal.none, CellVal.str "5"⟩ = false
      ∧ isGroupHeader ⟨CellVal.str "item", 2, CellVal.none, CellVal.str "5"⟩ = false
      ∧ (⟨CellVal.str "item", 2, CellVal.none, CellVal.str "5"⟩ : Row).indent = 2)
    ∧ (mkNode ⟨CellVal.str "item", 2, CellVal.none, CellVal.str "5"⟩).children = Option.none
    ∧ step initState ⟨CellVal.str "item", 2, CellVal.none, CellVal.str "5"⟩ =
        ⟨[⟨⟨CellVal.str "item", []⟩, CellVal.none,
            some ⟨some (CellVal.str "5"), []⟩, Option.none⟩],
          Option.none, Option.none, Option.none, Option.none, [0]⟩ :=
  ⟨by decide,
   (leaf_item_rule initState _ (by decide) (by decide) (by decide) (by decide) (by decide)
      rfl).1,
   ((leaf_item_rule initState _ (by decide) (by decide) (by decide) (by decide) (by decide)
      rfl).2).trans (by decide)⟩

/-! ## C5: footnote continuation merge -/

/-- C5.  On the footnote-section rows "1 First note.", "continued
line.", "2 Second note.", the Footnote Section Parser produces exactly
the two entries in order: each digit-led row opens a new entry keyed by
its leading digit run with the trimmed remainder as note, and the
non-digit-led row is appended to the current entry's note with a single
joining space. -/
theorem footnote_continuation_merge :
    parse_notes [CellVal.str "1 First note.", CellVal.str "continued line.",
      CellVal.str "2 Second note."]
    = [⟨"1", "First note. continued line."⟩, ⟨"2", "Second note."⟩] := by
  decide

/-! ## C6: the rich-text cell decoder -/

/-- The loop of lines 14-22: folding the runs into the pair of
accumulators concatenates, run by run, the non-superscript texts into
the first component and the superscript texts into the second. -/
lemma extract_loop_eq : ∀ (rs : List Run) (a b : String),
    rs.foldl
      (fun (acc : String × String) p =>
        match p with
        | Run.block s va =>
          if va = some "superscript" then (acc.1, acc.2 ++ s) else (acc.1 ++ s, acc.2)
        | Run.plain s => (acc.1 ++ s, acc.2))
      (a, b)
    = (a ++ concatTexts rs, b ++ concatSupers rs)
  | [], a, b => by simp [concatTexts, concatSupers, String.append_empty]
  | r :: rs, a, b => by
    cases r with
    | plain s =>
      simp only [List.foldl_cons, extract_loop_eq rs, concatTexts, concatSupers,
        runTextPart, runSuperPart, String.append_empty, String.append_assoc,
        String.empty_append]
    | block s va =>
      by_cases hva : va = some "superscript" <;>
        simp [extract_loop_eq rs, concatTexts, concatSupers, runTextPart, runSuperPart,
          hva, String.append_empty, String.append_assoc]

/-- C6.  The decoder of a rich cell concatenates the non-superscript
runs into the text (a blank concatenation becoming `None`) and derives
the footnote references from the concatenation of the superscript runs
by splitting on commas, trimming, and dropping empty pieces, in split
order; in particular the cell [plain "срок", superscript "2, 5"]
decodes to text "срок" with references ["2", "5"]. -/
theorem rich_text_decoder (rs : List Run) :
    extract_text_and_notes (CellVal.rich rs)
      = ((if strEmpty (pyStrip (concatTexts rs)) then CellVal.none
          else CellVal.str (concatTexts rs)),
         splitRefs (concatSupers rs))
    ∧ extract_text_and_notes
        (CellVal.rich [Run.plain "срок", Run.block "2, 5" (some "superscript")])
      = (CellVal.str "срок", ["2", "5"]) := by
  refine ⟨?_, by decide⟩
  show (let acc := rs.foldl _ ("", "")
        let term := if strEmpty (pyStrip acc.1) then CellVal.none else CellVal.str acc.1
        (term, splitRefs acc.2)) = _
  rw [extract_loop_eq rs "" ""]
  simp [String.empty_append]

/-! ## C8: sheets without a footnote marker -/

/-- Reading positions `k, k+1, ...` (0-based) out of a list with a
default yields exactly the list with its first `k` elements dropped. -/
lemma range'_map_getD {α : Type} (d : α) (l : List α) : ∀ k : Nat,
    (List.range' k (l.length - k)).map (fun i => l.getD i d) = l.drop k := by
  induction l with
  | nil => intro k; simp
  | cons x xs ih =>
    intro k
    cases k with
    | zero =>
      have hlen : (x :: xs).length - 0 = xs.length + 1 := by simp
      rw [hlen, List.range'_succ]
      simp only [List.map_cons, List.getD_cons_zero, List.drop_zero]
      have hr : List.range' 1 xs.length = (List.range' 0 xs.length).map (fun i => 1 + i) :=
        (List.map_add_range' 1 0 xs.length 1).symm
      rw [hr, List.map_map]
      have hfun : ((fun i => (x :: xs).getD i d) ∘ fun i => 1 + i)
          = fun i => xs.getD i d := by
        funext i
        simp [Nat.add_comm 1 i, List.getD_cons_succ]
      rw [hfun]
      have h0 := ih 0
      simp only [Nat.sub_zero, List.drop_zero] at h0
      rw [h0]
    | succ k =>
      have hlen : (x :: xs).length - (k + 1) = xs.length - k := by simp
      rw [hlen]
      have hr : List.range' (k + 1) (xs.length - k)
          = (List.range' k (xs.length - k)).map (fun i => 1 + i) := by
        simp [Nat.add_comm 1 k]
      rw [hr, List.map_map]
      have hfun : ((fun i => (x :: xs).getD i d) ∘ fun i => 1 + i)
          = fun i => xs.getD i d := by
        funext i
        simp [Nat.add_comm 1 i, List.getD_cons_succ]
      rw [hfun, ih k, List.drop_succ_cons]

/-- The main-part slice of a marker-free sheet is exactly the row list
with the 8 header rows dropped. -/
lemma sheetRange_nine (s : Sheet) : sheetRange s 9 s.rows.length = s.rows.drop 8 := by
  rw [sheetRange]
  have h98 : s.rows.length + 1 - 9 = s.rows.length - 8 := by omega
  rw [h98]
  have hr : List.range' 9 (s.rows.length - 8)
      = (List.range' 8 (s.rows.length - 8)).map (fun i => 1 + i) :=
    (List.map_add_range' 1 8 _ 1).symm
  rw [hr, List.map_map]
  have hfun : (getRow s ∘ fun i => 1 + i) = fun i => s.rows.getD i emptyRow := by
    funext i
    simp [getRow, Nat.add_comm 1 i]
  rw [hfun, range'_map_getD]

/-- C8.  When no row's column-1 value contains the footnote marker, the
footnote parser is never reached — the output notes list is empty, not
an error — and the Hierarchy Builder processes every row after the
8-row header up to the sheet's last row. -/
theorem no_marker_no_notes (s : Sheet) (h : ∀ r ∈ s.rows, markerRow r = false) :
    (parse_excel_to_json s).notes = []
    ∧ (parse_excel_to_json s).normativeTerms = parse_normative_terms (s.rows.drop 8) := by
  have hf : findNoteRow s = Option.none := by
    rw [findNoteRow]
    apply List.find?_eq_none.mpr
    intro i hi
    rw [List.mem_range'_1] at hi
    have hlt : i - 1 < s.rows.length := by omega
    have hmem : getRow s i ∈ s.rows := by
      rw [getRow, List.getD_eq_getElem _ _ hlt]
      exact List.getElem_mem hlt
    simp [h _ hmem]
  constructor
  · simp [parse_excel_to_json, hf]
  · simp [parse_excel_to_json, hf, sheetRange_nine]

/-- Witness for C8: a 9-row sheet without a marker. -/
theorem no_marker_no_notes_witness :
    (∀ r ∈ (⟨List.replicate 8 emptyRow ++
        [⟨CellVal.str "Division", 0, CellVal.str "1", CellVal.none⟩]⟩ : Sheet).rows,
        markerRow r = false)
    ∧ ((parse_excel_to_json ⟨List.replicate 8 emptyRow ++
          [⟨CellVal.str "Division", 0, CellVal.str "1", CellVal.none⟩]⟩).notes = []
      ∧ (parse_excel_to_json ⟨List.replicate 8 emptyRow ++
          [⟨CellVal.str "Division", 0, CellVal.str "1", CellVal.none⟩]⟩).normativeTerms
        = parse_normative_terms ((⟨List.replicate 8 emptyRow ++
            [⟨CellVal.str "Division", 0, CellVal.str "1", CellVal.none⟩]⟩ : Sheet).rows.drop 8)) :=
  ⟨by decide, no_marker_no_notes _ (by decide)⟩

/-! ## C7: idempotence of the Text Normalizer -/

/-- No two adjacent whitespace characters. -/
def NoTwoWS (a b : Char) : Prop := ¬(isWS a = true ∧ isWS b = true)

/-- Every whitespace character emitted by the collapse pass is the
ASCII space. -/
lemma collapseGo_ws_space :
    ∀ (l : List Char) (b : Bool), ∀ c ∈ collapseGo b l, isWS c = true → c = ' ' := by
  intro l
  induction l with
  | nil => intro b c hc; simp [collapseGo] at hc
  | cons a as ih =>
    intro b c hc hws
    by_cases ha : isWS a = true
    · cases b with
      | true =>
        rw [collapseGo, if_pos ha] at hc
        exact ih true c hc hws
      | false =>
        rw [collapseGo, if_pos ha] at hc
        rcases List.mem_cons.mp hc with h | h
        · exact h
        · exact ih true c h hws
    · rw [collapseGo, if_neg ha] at hc
      rcases List.mem_cons.mp hc with h | h
      · exact absurd (h ▸ hws) ha
      · exact ih false c h hws

/-- After a whitespace run was just collapsed, the next emitted
character is not whitespace. -/
lemma collapseGo_true_head :
    ∀ l : List Char, ∀ d ∈ (collapseGo true l).head?, isWS d = false := by
  intro l
  induction l with
  | nil => intro d hd; simp [collapseGo] at hd
  | cons a as ih =>
    intro d hd
    by_cases ha : isWS a = true
    · rw [collapseGo, if_pos ha] at hd
      exact ih d hd
    · rw [collapseGo, if_neg ha] at hd
      simp only [List.head?_cons, Option.mem_def, Option.some.injEq] at hd
      subst hd
      simpa using ha

/-- The collapse pass never emits two adjacent whitespace characters. -/
lemma collapseGo_chain :
    ∀ (l : List Char) (b : Bool), List.Chain' NoTwoWS (collapseGo b l) := by
  intro l
  induction l with
  | nil => intro b; simp [collapseGo, List.chain'_nil]
  | cons a as ih =>
    intro b
    by_cases ha : isWS a = true
    · cases b with
      | true => rw [collapseGo, if_pos ha]; exact ih true
      | false =>
        rw [collapseGo, if_pos ha]
        refine List.chain'_cons'.mpr ⟨?_, ih true⟩
        intro y hy
        have := collapseGo_true_head as y hy
        exact fun hcon => by rw [this] at hcon; exact absurd hcon.2 (by simp)
    · rw [collapseGo, if_neg ha]
      refine List.chain'_cons'.mpr ⟨?_, ih false⟩
      intro y _
      exact fun hcon => ha hcon.1

/-- When the head is not whitespace the flag does not matter. -/
lemma collapseGo_true_eq_false :
    ∀ l : List Char, (∀ d ∈ l.head?, isWS d = false) → collapseGo true l = collapseGo false l := by
  intro l h
  cases l with
  | nil => rfl
  | cons a as =>
    have ha : isWS a = false := h a rfl
    rw [collapseGo, collapseGo, if_neg (by simp [ha]), if_neg (by simp [ha])]

/-- The collapse pass is the identity on lists in normal form: all
whitespace is the single space, never twice in a row. -/
lemma collapseGo_id :
    ∀ l : List Char, (∀ c ∈ l, isWS c = true → c = ' ') → List.Chain' NoTwoWS l →
      collapseGo false l = l := by
  intro l
  induction l with
  | nil => intro _ _; rfl
  | cons a as ih =>
    intro hall hch
    obtain ⟨hR, hch'⟩ := List.chain'_cons'.mp hch
    by_cases ha : isWS a = true
    · have hsp : a = ' ' := hall a (List.mem_cons_self a as) ha
      have hhead : ∀ d ∈ as.head?, isWS d = false := by
        intro d hd
        by_contra hcon
        exact hR d hd ⟨ha, Bool.of_not_eq_false hcon⟩
      rw [collapseGo, if_pos ha]
      simp only [Bool.false_eq_true, if_false]
      rw [collapseGo_true_eq_false as hhead,
        ih (fun c hc => hall c (List.mem_cons_of_mem a hc)) hch', hsp]
    · rw [collapseGo, if_neg ha,
        ih (fun c hc => hall c (List.mem_cons_of_mem a hc)) hch']

/-- Characters surviving the strip are characters of the input. -/
lemma trimWS_subset : ∀ l : List Char, ∀ c ∈ trimWS l, c ∈ l := by
  intro l c hc
  rw [trimWS, List.mem_reverse] at hc
  have h1 := (List.dropWhile_suffix (l := (l.dropWhile isWS).reverse) isWS).subset hc
  rw [List.mem_reverse] at h1
  exact (List.dropWhile_suffix isWS).subset h1

/-- The no-adjacent-whitespace property survives reversal. -/
lemma chain_noTwo_reverse {l : List Char} (h : List.Chain' NoTwoWS l) :
    List.Chain' NoTwoWS l.reverse := by
  rw [List.chain'_reverse]
  exact h.imp fun a b hab => fun hcon => hab ⟨hcon.2, hcon.1⟩

/-- The no-adjacent-whitespace property survives stripping. -/
lemma trimWS_chain {l : List Char} (h : List.Chain' NoTwoWS l) :
    List.Chain' NoTwoWS (trimWS l) := by
  rw [trimWS]
  exact chain_noTwo_reverse
    ((chain_noTwo_reverse (h.suffix (List.dropWhile_suffix isWS))).suffix
      (List.dropWhile_suffix isWS))

/-- Stripping is idempotent. -/
lemma trimWS_idem : ∀ l : List Char, trimWS (trimWS l) = trimWS l := by
  intro l
  have hv : trimWS l = ((l.dropWhile isWS).reverse.dropWhile isWS).reverse := rfl
  cases he : ((l.dropWhile isWS).reverse.dropWhile isWS).reverse with
  | nil => rw [hv, he]; rfl
  | cons d t =>
    have hpre : ((l.dropWhile isWS).reverse.dropWhile isWS).reverse <+: l.dropWhile isWS := by
      have hs : (l.dropWhile isWS).reverse.dropWhile isWS <:+ (l.dropWhile isWS).reverse :=
        List.dropWhile_suffix isWS
      have := List.reverse_prefix.mpr hs
      rwa [List.reverse_reverse] at this
    have hd : isWS d = false := by
      rw [he] at hpre
      obtain ⟨rest, hrest⟩ := hpre
      have hh := List.head?_dropWhile_not isWS l
      rw [← hrest] at hh
      simpa using hh
    have step1 : (trimWS l).dropWhile isWS = trimWS l := by
      rw [hv, he, List.dropWhile_cons, if_neg (by simp [hd])]
    rw [trimWS, step1, hv, List.reverse_reverse, List.dropWhile_idempotent]

/-- The Text Normalizer's string pass is idempotent. -/
lemma clean_string_idem (s : String) : clean_string (clean_string s) = clean_string s := by
  show String.mk (trimWS (collapseWS (trimWS (collapseWS s.data)))) = _
  have hall : ∀ c ∈ trimWS (collapseWS s.data), isWS c = true → c = ' ' :=
    fun c hc => collapseGo_ws_space s.data false c (trimWS_subset _ c hc)
  have hch : List.Chain' NoTwoWS (trimWS (collapseWS s.data)) :=
    trimWS_chain (collapseGo_chain s.data false)
  have h1 : collapseWS (trimWS (collapseWS s.data)) = trimWS (collapseWS s.data) :=
    collapseGo_id _ hall hch
  rw [h1, trimWS_idem]
  rfl

mutual

/-- `clean_data` is idempotent on every value. -/
theorem clean_data_idem : (j : Json) → clean_data (clean_data j) = clean_data j
  | Json.null => rfl
  | Json.str s => rfl
  | Json.int n => rfl
  | Json.arr items => by rw [clean_data, clean_data, cleanArr_idem items]
  | Json.obj fields => by rw [clean_data, clean_data, cleanObj_idem fields]

theorem cleanArr_idem : (x : JsonArr) → cleanArr (cleanArr x) = cleanArr x
  | JsonArr.nil => rfl
  | JsonArr.cons v tl => by
    cases v with
    | null => rw [cleanArr, cleanArr, cleanArr_idem tl]
    | str s => rw [cleanArr, cleanArr, cleanArr_idem tl, clean_string_idem]
    | int n => rw [cleanArr, cleanArr, cleanArr_idem tl]
    | arr items => rw [cleanArr, cleanArr, cleanArr_idem tl, cleanArr_idem items]
    | obj fields => rw [cleanArr, cleanArr, cleanArr_idem tl, cleanObj_idem fields]

theorem cleanObj_idem : (x : JsonObj) → cleanObj (cleanObj x) = cleanObj x
  | JsonObj.nil => rfl
  | JsonObj.cons k v tl => by
    cases v with
    | null => rw [cleanObj, cleanObj_idem tl]
    | str s => rw [cleanObj, cleanObj, cleanObj_idem tl, clean_string_idem]
    | int n => rw [cleanObj, cleanObj, cleanObj_idem tl]
    | arr items => rw [cleanObj, cleanObj, cleanObj_idem tl, cleanArr_idem items]
    | obj fields => rw [cleanObj, cleanObj, cleanObj_idem tl, cleanObj_idem fields]

end

/-- C7.  The Text Normalizer is idempotent: applying `clean_data`
(whitespace collapse and trim of every string field, removal of
`None`-valued fields) twice to any document value produces the same
result as applying it once. -/
theorem clean_data_idempotent (j : Json) : clean_data (clean_data j) = clean_data j :=
  clean_data_idem j

/-! ## C4: no empty children lists in the emitted forest -/

lemma length_hmodify : ∀ (h : List HNode) (i : Nat) (f : HNode → HNode),
    (hmodify h i f).length = h.length
  | [], _, _ => rfl
  | _ :: _, 0, _ => rfl
  | n :: t, i+1, f => by simp [hmodify, length_hmodify t i f]

lemma get?_hmodify_eq : ∀ (h : List HNode) (i : Nat) (f : HNode → HNode),
    (hmodify h i f).get? i = (h.get? i).map f
  | [], _, _ => rfl
  | _ :: _, 0, _ => rfl
  | n :: t, i+1, f => by
    simp only [hmodify, List.get?_cons_succ]
    exact get?_hmodify_eq t i f

lemma get?_hmodify_ne : ∀ (h : List HNode) (i j : Nat) (f : HNode → HNode), j ≠ i →
    (hmodify h i f).get? j = h.get? j
  | [], _, _, _, _ => rfl
  | _ :: _, 0, 0, _, hj => absurd rfl hj
  | n :: t, 0, j+1, f, _ => by simp [hmodify]
  | n :: t, i+1, 0, f, _ => rfl
  | n :: t, i+1, j+1, f, hj => by
    simp only [hmodify, List.get?_cons_succ]
    exact get?_hmodify_ne t i j f fun e => hj (by rw [e])

/-- The only kind of change the cleanup pass makes to a heap entry:
either it is untouched, or a `children` key holding the empty list is
deleted. -/
def HeapRel (h h' : List HNode) : Prop :=
  ∀ j, h'.get? j = h.get? j ∨
    ∃ n, h.get? j = some n ∧ n.children = some ([] : List Nat) ∧
      h'.get? j = some { n with children := Option.none }

lemma heapRel_refl (h : List HNode) : HeapRel h h := fun _ => Or.inl rfl

lemma heapRel_trans {h h₁ h₂ : List HNode} (a : HeapRel h h₁) (b : HeapRel h₁ h₂) :
    HeapRel h h₂ := by
  intro j
  rcases a j with ha | ⟨n, hn, hc, hn'⟩
  · rcases b j with hb | ⟨m, hm, hc2, hm'⟩
    · exact Or.inl (hb.trans ha)
    · exact Or.inr ⟨m, ha ▸ hm, hc2, hm'⟩
  · rcases b j with hb | ⟨m, hm, hc2, hm'⟩
    · exact Or.inr ⟨n, hn, hc, hb.trans hn'⟩
    · rw [hn'] at hm
      obtain rfl : { n with children := Option.none } = m := by
        simpa using hm
      simp at hc2

lemma heapRel_deleteIfEmpty (h : List HNode) (i : Nat) : HeapRel h (deleteIfEmpty h i) := by
  intro j
  rcases hg : h.get? i with _ | n
  · left
    simp only [deleteIfEmpty, hg]
  · simp only [deleteIfEmpty, hg]
    by_cases hc : n.children = some ([] : List Nat)
    · rw [if_pos hc]
      by_cases hj : j = i
      · subst hj
        right
        exact ⟨n, hg, hc, by rw [get?_hmodify_eq, hg]; rfl⟩
      · exact Or.inl (get?_hmodify_ne h i j _ hj)
    · rw [if_neg hc]
      exact Or.inl rfl

lemma length_deleteIfEmpty (h : List HNode) (i : Nat) :
    (deleteIfEmpty h i).length = h.length := by
  rcases hg : h.get? i with _ | n
  · simp only [deleteIfEmpty, hg]
  · simp only [deleteIfEmpty, hg]
    by_cases hc : n.children = some ([] : List Nat)
    · rw [if_pos hc, length_hmodify]
    · rw [if_neg hc]

/-- The entry the delete pass was pointed at never keeps an empty
children list. -/
lemma deleteIfEmpty_not_empty (h : List HNode) (i : Nat) (n : HNode)
    (hg : (deleteIfEmpty h i).get? i = some n) : n.children ≠ some ([] : List Nat) := by
  rcases hh : h.get? i with _ | m
  · simp only [deleteIfEmpty, hh] at hg
    cases hg
  · simp only [deleteIfEmpty, hh] at hg
    by_cases hc : m.children = some ([] : List Nat)
    · rw [if_pos hc, get?_hmodify_eq, hh] at hg
      obtain rfl : { m with children := Option.none } = n := by simpa using hg
      simp
    · rw [if_neg hc, hh] at hg
      obtain rfl : m = n := by simpa using hg
      exact hc

lemma heapRel_cleanFold (fuel : Nat)
    (ih : ∀ (h : List HNode) (i : Nat), HeapRel h (clean_empty_children h fuel i)) :
    ∀ (cs : List Nat) (h : List HNode),
      HeapRel h (cs.foldl (fun hh c => clean_empty_children hh fuel c) h)
  | [], h => heapRel_refl h
  | c :: cs, h => by
    rw [List.foldl_cons]
    exact heapRel_trans (ih h c) (heapRel_cleanFold fuel ih cs _)

lemma heapRel_clean : ∀ (fuel : Nat) (h : List HNode) (i : Nat),
    HeapRel h (clean_empty_children h fuel i) := by
  intro fuel
  induction fuel with
  | zero => intro h i; exact heapRel_refl h
  | succ fuel ih =>
    intro h i
    rw [clean_empty_children]
    rcases hg : (deleteIfEmpty h i).get? i with _ | n
    · simp only [hg]
      exact heapRel_deleteIfEmpty h i
    · rcases hcn : n.children with _ | cs
      · simp only [hg, hcn]
        exact heapRel_deleteIfEmpty h i
      · simp only [hg, hcn]
        exact heapRel_trans (heapRel_deleteIfEmpty h i) (heapRel_cleanFold fuel ih cs _)

lemma length_cleanFold (fuel : Nat)
    (ih : ∀ (h : List HNode) (i : Nat), (clean_empty_children h fuel i).length = h.length) :
    ∀ (cs : List Nat) (h : List HNode),
      (cs.foldl (fun hh c => clean_empty_children hh fuel c) h).length = h.length
  | [], _ => rfl
  | c :: cs, h => by
    rw [List.foldl_cons, length_cleanFold fuel ih cs _, ih h c]

lemma length_clean : ∀ (fuel : Nat) (h : List HNode) (i : Nat),
    (clean_empty_children h fuel i).length = h.length := by
  intro fuel
  induction fuel with
  | zero => intro h i; rfl
  | succ fuel ih =>
    intro h i
    rw [clean_empty_children]
    rcases hg : (deleteIfEmpty h i).get? i with _ | n
    · simp only [hg]
      exact length_deleteIfEmpty h i
    · rcases hcn : n.children with _ | cs
      · simp only [hg, hcn]
        exact length_deleteIfEmpty h i
      · simp only [hg, hcn]
        rw [length_cleanFold fuel ih cs _, length_deleteIfEmpty]

lemma childrenOf_congr {h h' : List HNode} {c : Nat} (hsame : h'.get? c = h.get? c) :
    childrenOf h' c = childrenOf h c := by
  rw [childrenOf, childrenOf, hsame]

/-- Cleanliness of the reachable part is preserved by any further
empty-children deletions. -/
lemma heapClean_mono : ∀ (fuel : Nat) {h h' : List HNode}, HeapRel h h' →
    ∀ c, heapClean h fuel c = true → heapClean h' fuel c = true := by
  intro fuel
  induction fuel with
  | zero => intro h h' _ c _; rfl
  | succ fuel ih =>
    intro h h' hrel c hc
    rw [heapClean] at hc ⊢
    rcases hrel c with hsame | ⟨n, _, _, hn'⟩
    · rw [childrenOf_congr hsame]
      rcases hg : childrenOf h c with _ | cs
      · rfl
      · rw [hg] at hc
        simp only [Option.all_some, Bool.and_eq_true, List.all_eq_true] at hc ⊢
        exact ⟨hc.1, fun x hx => ih hrel x (hc.2 x hx)⟩
    · have h1 : childrenOf h' c = Option.none := by rw [childrenOf, hn']
      rw [h1]
      rfl

/-- After the fold cleans every child, each member of the list is
clean, and stays clean through the cleaning of its later siblings. -/
lemma heapClean_cleanFold (fuel : Nat)
    (ihm : ∀ (h : List HNode) (i : Nat),
      heapClean (clean_empty_children h fuel i) fuel i = true) :
    ∀ (cs : List Nat) (h : List HNode) (c : Nat), c ∈ cs →
      heapClean (cs.foldl (fun hh x => clean_empty_children hh fuel x) h) fuel c = true := by
  intro cs
  induction cs with
  | nil => intro h c hc; cases hc
  | cons a as ih =>
    intro h c hc
    rw [List.foldl_cons]
    rcases List.mem_cons.mp hc with hceq | hmem
    · subst hceq
      exact heapClean_mono fuel
        (heapRel_cleanFold fuel (heapRel_clean fuel) as (clean_empty_children h fuel c)) c
        (ihm h c)
    · exact ih (clean_empty_children h fuel a) c hmem

/-- Cleaning a node with enough fuel makes it and everything reachable
from it (within that fuel) clean. -/
lemma heapClean_clean : ∀ (fuel : Nat) (h : List HNode) (i : Nat),
    heapClean (clean_empty_children h fuel i) fuel i = true := by
  intro fuel
  induction fuel with
  | zero => intro h i; rfl
  | succ fuel ih =>
    intro h i
    rw [clean_empty_children]
    rcases hg : (deleteIfEmpty h i).get? i with _ | n
    · simp only [hg]
      rw [heapClean]
      have h2 : childrenOf (deleteIfEmpty h i) i = Option.none := by
        rw [childrenOf, hg]
      rw [h2]
      rfl
    · rcases hcn : n.children with _ | cs
      · simp only [hg, hcn]
        rw [heapClean]
        have h2 : childrenOf (deleteIfEmpty h i) i = Option.none := by
          rw [childrenOf, hg]; exact hcn
        rw [h2]
        rfl
      · simp only [hg, hcn]
        have hrel : HeapRel (deleteIfEmpty h i)
            (cs.foldl (fun hh x => clean_empty_children hh fuel x) (deleteIfEmpty h i)) :=
          heapRel_cleanFold fuel (heapRel_clean fuel) cs (deleteIfEmpty h i)
        rw [heapClean]
        rcases hrel i with hsame | ⟨m, _, hme, hm'⟩
        · have h2 : childrenOf (deleteIfEmpty h i) i = some cs := by
            rw [childrenOf, hg]; exact hcn
          rw [childrenOf_congr hsame, h2]
          have hcs : cs ≠ [] := by
            intro he
            exact deleteIfEmpty_not_empty h i n hg (he ▸ hcn)
          simp only [Option.all_some, Bool.and_eq_true, List.all_eq_true]
          refine ⟨by simp [List.isEmpty_eq_false.mpr hcs], ?_⟩
          intro x hx
          exact heapClean_cleanFold fuel ih cs (deleteIfEmpty h i) x hx
        · have h1 : childrenOf
              (cs.foldl (fun hh x => clean_empty_children hh fuel x) (deleteIfEmpty h i)) i
              = Option.none := by rw [childrenOf, hm']
          rw [h1]
          rfl

/-- The cleanup loop of lines 206-207, with the fuel each call uses
written as in `parse_normative_terms`: every root is clean in the final
heap, at fuel equal to the (stable) heap length. -/
lemma heapClean_cleanAll : ∀ (roots : List Nat) (h : List HNode) (r : Nat), r ∈ roots →
    heapClean (roots.foldl (fun hh x => clean_empty_children hh hh.length x) h)
      (roots.foldl (fun hh x => clean_empty_children hh hh.length x) h).length r = true := by
  intro roots
  induction roots with
  | nil => intro h r hr; cases hr
  | cons a as ih =>
    intro h r hr
    rw [List.foldl_cons]
    rcases List.mem_cons.mp hr with hreq | hmem
    · subst hreq
      have hlen : (as.foldl (fun hh x => clean_empty_children hh hh.length x)
          (clean_empty_children h h.length r)).length = h.length := by
        have hstep : ∀ (cs : List Nat) (hh : List HNode),
            (cs.foldl (fun hx x => clean_empty_children hx hx.length x) hh).length
              = hh.length := by
          intro cs
          induction cs with
          | nil => intro hh; rfl
          | cons c cs ihc =>
            intro hh
            rw [List.foldl_cons, ihc, length_clean]
        rw [hstep, length_clean]
      rw [hlen]
      have hrel : HeapRel (clean_empty_children h h.length r)
          (as.foldl (fun hh x => clean_empty_children hh hh.length x)
            (clean_empty_children h h.length r)) := by
        have : ∀ (cs : List Nat) (hh : List HNode),
            HeapRel hh (cs.foldl (fun hx x => clean_empty_children hx hx.length x) hh) := by
          intro cs
          induction cs with
          | nil => intro hh; exact heapRel_refl hh
          | cons c cs ihc =>
            intro hh
            rw [List.foldl_cons]
            exact heapRel_trans (heapRel_clean hh.length hh c) (ihc _)
        exact this as _
      exact heapClean_mono h.length hrel r (heapClean_clean h.length h r)
    · exact ih (clean_empty_children h h.length a) r hmem

/-- C4.  After the Hierarchy Builder's full pass, including the
recursive `clean_empty_children` cleanup, no node in the emitted forest
(no root and no node reachable from one through `children` lists)
carries a `children` field holding an empty sequence. -/
theorem no_empty_children_emitted (rows : List Row) :
    (parse_normative_terms rows).1.all
      (fun r => heapClean (parse_normative_terms rows).2
        (parse_normative_terms rows).2.length r) = true := by
  rw [List.all_eq_true]
  intro r hr
  simp only [parse_normative_terms] at hr ⊢
  exact heapClean_cleanAll (runRows rows).roots (runRows rows).heap r hr
